import Mathlib

/-!
# A hash-linked ledger (`main.go`)

A shallow embedding of the program in `src/main.go`: the `Block` record, the
global `blockchain` slice (passed explicitly as a list), and the operations
`CalculateHash`, `NewBlock`, `ChangeBlock` and `VerifyChain`.

Go strings are byte sequences, so they are lists of bytes here.  The library
functions the program calls (`string(int)` of the Go runtime,
`crypto/sha256`, `encoding/hex`) are embedded as executable definitions, so
that every operation can be evaluated on concrete inputs.

Console output: `VerifyChain` and `ChangeBlock` report the line they print;
the table drawn by `DisplayBlocks` (package `tablewriter`) is not modelled.
Every operation is one sequential step on the chain; the mutex calls of an
operation are listed apart, as its sequence of events.  The chain holds
pointers to blocks that `NewBlock` allocates one by one, so no two positions
share a block and the chain is a list of records; `Store` is the state with
the pointers spelled out, and on the states the program reaches its
operations do to the heap what the operations on lists do.  Go's `int` is an
unbounded integer here; the program does no arithmetic on it.
-/

set_option autoImplicit false

namespace Ledger

/-! ## Go strings -/

/-- A Go `string`: an immutable sequence of bytes. -/
abbrev GoString := List (Fin 256)

/-- The Go conversion `byte(x)`: the low eight bits. -/
def byte (x : Nat) : Fin 256 := ⟨x % 256, Nat.mod_lt x (by decide)⟩

/-- The Go conversion `uint32(r)` of a signed integer: two's complement wrap-around. -/
def uint32 (r : Int) : Nat := (r % 4294967296).toNat

/-- The Go conversion `rune(v)`, that is `int32(v)`: wrap-around into `[-2^31, 2^31)`. -/
def rune (v : Int) : Int := (v + 2147483648) % 4294967296 - 2147483648

/-- Unicode replacement character `runeError`. -/
def runeError : Int := 0xFFFD

/-- Go runtime `encoderune`: the UTF-8 encoding of rune `r`; surrogates and
values above `maxRune` (among them every negative rune, seen as `uint32`) are
encoded as `runeError`. -/
def encoderune (r : Int) : GoString :=
  let i := uint32 r
  if i ≤ 0x7F then
    [byte i]
  else if i ≤ 0x7FF then
    [byte (0xC0 ||| byte (i >>> 6)), byte (0x80 ||| (byte i &&& 0x3F))]
  else
    let i := if i > 0x10FFFF ∨ (0xD800 ≤ i ∧ i ≤ 0xDFFF) then uint32 runeError else i
    if i ≤ 0xFFFF then
      [byte (0xE0 ||| byte (i >>> 12)), byte (0x80 ||| (byte (i >>> 6) &&& 0x3F)),
        byte (0x80 ||| (byte i &&& 0x3F))]
    else
      [byte (0xF0 ||| byte (i >>> 18)), byte (0x80 ||| (byte (i >>> 12) &&& 0x3F)),
        byte (0x80 ||| (byte (i >>> 6) &&& 0x3F)), byte (0x80 ||| (byte i &&& 0x3F))]

/-- Go runtime `intstring`, the conversion `string(v)` of an integer `v`: the
UTF-8 encoding of the code point `v`, and of `runeError` when `v` does not fit
a rune. -/
def intstring (v : Int) : GoString :=
  encoderune (if rune v ≠ v then runeError else rune v)

/-- A Go string literal: the UTF-8 bytes of its text. -/
def str (s : String) : GoString :=
  s.data.flatMap fun c => encoderune c.toNat

/-! ## `crypto/sha256` (FIPS 180-4), on 32-bit words with explicit wrap-around -/

namespace sha256

/-- The round constants `_K`. -/
def K : List Nat := [
  0x428a2f98, 0x71374491, 0xb5c0fbcf, 0xe9b5dba5, 0x3956c25b, 0x59f111f1, 0x923f82a4, 0xab1c5ed5,
  0xd807aa98, 0x12835b01, 0x243185be, 0x550c7dc3, 0x72be5d74, 0x80deb1fe, 0x9bdc06a7, 0xc19bf174,
  0xe49b69c1, 0xefbe4786, 0x0fc19dc6, 0x240ca1cc, 0x2de92c6f, 0x4a7484aa, 0x5cb0a9dc, 0x76f988da,
  0x983e5152, 0xa831c66d, 0xb00327c8, 0xbf597fc7, 0xc6e00bf3, 0xd5a79147, 0x06ca6351, 0x14292967,
  0x27b70a85, 0x2e1b2138, 0x4d2c6dfc, 0x53380d13, 0x650a7354, 0x766a0abb, 0x81c2c92e, 0x92722c85,
  0xa2bfe8a1, 0xa81a664b, 0xc24b8b70, 0xc76c51a3, 0xd192e819, 0xd6990624, 0xf40e3585, 0x106aa070,
  0x19a4c116, 0x1e376c08, 0x2748774c, 0x34b0bcb5, 0x391c0cb3, 0x4ed8aa4a, 0x5b9cca4f, 0x682e6ff3,
  0x748f82ee, 0x78a5636f, 0x84c87814, 0x8cc70208, 0x90befffa, 0xa4506ceb, 0xbef9a3f7, 0xc67178f2]

/-- The eight 32-bit words of the chaining value. -/
structure Digest where
  h0 : Nat
  h1 : Nat
  h2 : Nat
  h3 : Nat
  h4 : Nat
  h5 : Nat
  h6 : Nat
  h7 : Nat
  deriving DecidableEq

/-- The initial chaining value `init0 .. init7`. -/
def init : Digest :=
  ⟨0x6a09e667, 0xbb67ae85, 0x3c6ef372, 0xa54ff53a, 0x510e527f, 0x9b05688c, 0x1f83d9ab, 0x5be0cd19⟩

/-- Truncation to a `uint32`. -/
def u32 (x : Nat) : Nat := x % 4294967296

/-- Rotation to the right by `n` bits, `bits.RotateLeft32(x, -n)`. -/
def rotr (x n : Nat) : Nat := u32 ((x >>> n) ||| (x <<< (32 - n)))

/-- Big-endian 32-bit words of a chunk. -/
def words : GoString → List Nat
  | b0 :: b1 :: b2 :: b3 :: rest =>
    (b0.val <<< 24 ||| b1.val <<< 16 ||| b2.val <<< 8 ||| b3.val) :: words rest
  | _ => []

/-- Extension of the message schedule by `n` words; the schedule is kept
newest word first, so `w[i-2]`, `w[i-7]`, `w[i-15]`, `w[i-16]` are the entries
`1`, `6`, `14`, `15`. -/
def extend : Nat → List Nat → List Nat
  | 0, w => w
  | n + 1, w =>
    let v1 := w.getD 1 0
    let t1 := rotr v1 17 ^^^ rotr v1 19 ^^^ (v1 >>> 10)
    let v2 := w.getD 14 0
    let t2 := rotr v2 7 ^^^ rotr v2 18 ^^^ (v2 >>> 3)
    extend n (u32 (t1 + w.getD 6 0 + t2 + w.getD 15 0) :: w)

/-- One round of the compression function on the working variables `a .. h`. -/
def round (s : Digest) (k w : Nat) : Digest :=
  let t1 := s.h7 + (rotr s.h4 6 ^^^ rotr s.h4 11 ^^^ rotr s.h4 25) +
    ((s.h4 &&& s.h5) ^^^ ((s.h4 ^^^ 0xffffffff) &&& s.h6)) + k + w
  let t2 := (rotr s.h0 2 ^^^ rotr s.h0 13 ^^^ rotr s.h0 22) +
    ((s.h0 &&& s.h1) ^^^ (s.h0 &&& s.h2) ^^^ (s.h1 &&& s.h2))
  ⟨u32 (t1 + t2), s.h0, s.h1, s.h2, u32 (s.h3 + t1), s.h4, s.h5, s.h6⟩

/-- The rounds, one for each pair of a constant and a schedule word. -/
def rounds : Digest → List Nat → List Nat → Digest
  | s, k :: ks, w :: ws => rounds (round s k w) ks ws
  | s, _, _ => s

/-- Compression of one 64-byte chunk into the chaining value. -/
def block (d : Digest) (chunk : GoString) : Digest :=
  let w := (extend 48 (words chunk).reverse).reverse
  let s := rounds d K w
  ⟨u32 (d.h0 + s.h0), u32 (d.h1 + s.h1), u32 (d.h2 + s.h2), u32 (d.h3 + s.h3),
    u32 (d.h4 + s.h4), u32 (d.h5 + s.h5), u32 (d.h6 + s.h6), u32 (d.h7 + s.h7)⟩

/-- Compression of the first `n` chunks of `p`. -/
def blocks : Nat → Digest → GoString → Digest
  | 0, d, _ => d
  | n + 1, d, p => blocks n (block d (p.take 64)) (p.drop 64)

/-- The padding `checkSum` writes after a message of `len` bytes: `0x80`,
zeros up to 56 modulo 64, and the bit length as a big-endian `uint64`. -/
def padding (len : Nat) : GoString :=
  let t := if len % 64 < 56 then 56 - len % 64 else 64 + 56 - len % 64
  let bits := (len <<< 3) % 18446744073709551616
  byte 0x80 :: List.replicate (t - 1) (byte 0) ++
    [byte (bits >>> 56), byte (bits >>> 48), byte (bits >>> 40), byte (bits >>> 32),
      byte (bits >>> 24), byte (bits >>> 16), byte (bits >>> 8), byte bits]

/-- Big-endian bytes of a 32-bit word. -/
def putUint32 (x : Nat) : GoString :=
  [byte (x >>> 24), byte (x >>> 16), byte (x >>> 8), byte x]

/-- The digest `h.Sum(nil)` after `h := sha256.New(); h.Write(msg)`: 32 bytes. -/
def Sum256 (msg : GoString) : GoString :=
  let p := msg ++ padding msg.length
  let d := blocks (p.length / 64) init p
  putUint32 d.h0 ++ putUint32 d.h1 ++ putUint32 d.h2 ++ putUint32 d.h3 ++
    putUint32 d.h4 ++ putUint32 d.h5 ++ putUint32 d.h6 ++ putUint32 d.h7

end sha256

/-! ## `encoding/hex` -/

namespace hex

/-- The digit table `hextable`. -/
def hextable : GoString := str "0123456789abcdef"

/-- Go `hex.EncodeToString`: two lowercase digits for every byte. -/
def EncodeToString (src : GoString) : GoString :=
  src.flatMap fun v => [hextable.getD (v.val >>> 4) 0, hextable.getD (v.val &&& 0x0f) 0]

/-- Go `fromHexChar`: the value of a hexadecimal digit. -/
def fromHexChar (c : Fin 256) : Nat :=
  if 48 ≤ c.val ∧ c.val ≤ 57 then c.val - 48
  else if 97 ≤ c.val ∧ c.val ≤ 102 then c.val - 97 + 10
  else 0

end hex

/-! ## The program -/

/-- Block structure containing information about a transaction. -/
structure Block where
  Transaction : GoString
  Nonce : Int
  PreviousHash : GoString
  Hash : GoString
  deriving DecidableEq

/-- The hash input `block.Transaction + string(block.Nonce) + block.PreviousHash`. -/
def record (block : Block) : GoString :=
  block.Transaction ++ intstring block.Nonce ++ block.PreviousHash

/-- CalculateHash generates the hash of a block using SHA-256. -/
def CalculateHash (block : Block) : GoString :=
  hex.EncodeToString (sha256.Sum256 (record block))

/-- Run-time failures of the Go program, and exhaustion of a loop budget. -/
inductive Fault where
  | indexOutOfRange
  | outOfFuel
  deriving DecidableEq, Repr

deriving instance DecidableEq for Except

/-- The line `VerifyChain` prints for an intact chain. -/
def validMessage : String := "Blockchain is valid."

/-- The line `VerifyChain` prints at the first broken link. -/
def invalidMessage : String := "Blockchain is not valid!"

/-- The line `ChangeBlock` prints for an index outside the chain. -/
def invalidIndexMessage : String := "Invalid block index"

/-- The line `ChangeBlock` prints after a change. -/
def changedMessage : String := "Block changed:"

/-- NewBlock creates a new block with the given transaction details, nonce, and
previous hash, calculates its hash and appends it to the chain.  The result is
the new chain and the block returned to the caller. -/
def NewBlock (blockchain : List Block) (transaction : GoString) (nonce : Int)
    (previousHash : GoString) : List Block × Block :=
  let block : Block := ⟨transaction, nonce, previousHash, []⟩
  let block := { block with Hash := CalculateHash block }
  (blockchain ++ [block], block)

/-- ChangeBlock updates the transaction of a given block and recalculates its
hash.  The result is the new chain and the line printed. -/
def ChangeBlock (blockchain : List Block) (index : Int) (transaction : GoString) :
    Except Fault (List Block × String) :=
  if index < 0 ∨ index ≥ blockchain.length then
    .ok (blockchain, invalidIndexMessage)
  else
    match blockchain[index.toNat]? with
    | none => .error .indexOutOfRange
    | some b =>
      let b := { b with Transaction := transaction }
      let b := { b with Hash := CalculateHash b }
      .ok (blockchain.set index.toNat b, changedMessage)

/-- The loop `for i := 1; i < len(blockchain); i++` of `VerifyChain`, from
index `i` on, with a budget of `fuel` evaluations of the loop condition. -/
def VerifyChain.loop (blockchain : List Block) : Nat → Nat → Except Fault String
  | 0, _ => .error .outOfFuel
  | fuel + 1, i =>
    if i < blockchain.length then
      match blockchain[i]?, blockchain[i - 1]? with
      | some b, some a =>
        if b.PreviousHash ≠ a.Hash then .ok invalidMessage
        else VerifyChain.loop blockchain fuel (i + 1)
      | _, _ => .error .indexOutOfRange
    else .ok validMessage

/-- VerifyChain checks the integrity of the blockchain: every block except the
first must point to the previous block.  The result is the line printed. -/
def VerifyChain (blockchain : List Block) : Except Fault String :=
  VerifyChain.loop blockchain (blockchain.length + 1) 1

/-- Hash linkage: every record but the first stores the hash its predecessor
stores now. -/
def Linked (blockchain : List Block) : Prop :=
  ∀ (i : Nat) (_ : 1 ≤ i) (h : i < blockchain.length),
    blockchain[i].PreviousHash = blockchain[i - 1].Hash

/-- The chains the program can produce: the empty chain, and what `NewBlock`
and `ChangeBlock` (with any arguments) make of a reachable chain. -/
inductive Reachable : List Block → Prop where
  | empty : Reachable []
  | newBlock (bc : List Block) (t : GoString) (n : Int) (p : GoString) :
      Reachable bc → Reachable (NewBlock bc t n p).1
  | changeBlock (bc bc' : List Block) (index : Int) (t : GoString) (msg : String) :
      Reachable bc → ChangeBlock bc index t = .ok (bc', msg) → Reachable bc'

/-- The previous hash `main` passes to `NewBlock`: the sentinel for the first
record, `blockchain[len(blockchain)-1].Hash` for every later one. -/
def linkHash (sentinel : GoString) (blockchain : List Block) : GoString :=
  match blockchain.getLast? with
  | none => sentinel
  | some b => b.Hash

/-- The chain built from the empty chain by one `NewBlock` call for every
(transaction, nonce) pair, each linked to the record before it. -/
def buildChain (sentinel : GoString) (txs : List (GoString × Int)) : List Block :=
  txs.foldl (fun bc tx => (NewBlock bc tx.1 tx.2 (linkHash sentinel bc)).1) []

/-- The three appends of the end-to-end scenario. -/
def scenarioChain : List Block :=
  let a := NewBlock [] (str "Ahmed to Fatima: 50") 1 (str "0")
  let b := NewBlock a.1 (str "Fatima to Zain: 20") 2 a.2.Hash
  let c := NewBlock b.1 (str "Zain to Sara: 30") 3 b.2.Hash
  c.1

/-- The scenario after the change of record 1, with the line `VerifyChain`
prints before the change and after it. -/
def scenario : Except Fault (String × String) := do
  let before ← VerifyChain scenarioChain
  let changed ← ChangeBlock scenarioChain 1 (str "Fatima to Ali: 25")
  let after ← VerifyChain changed.1
  pure (before, after)

/-- A chain of two records whose stored hashes were never computed. -/
def sampleChain : List Block :=
  [⟨str "a", 1, str "0", str "x"⟩, ⟨str "b", 2, str "x", str "y"⟩]

/-- The integers that are Unicode scalar values: code points outside the
surrogate range. -/
def validScalar (v : Int) : Prop :=
  0 ≤ v ∧ v ≤ 0x10FFFF ∧ ¬ (0xD800 ≤ v ∧ v ≤ 0xDFFF)

/-- Two different hash inputs with the same SHA-256 digest. -/
def Collision (x y : GoString) : Prop :=
  x ≠ y ∧ sha256.Sum256 x = sha256.Sum256 y

/-! ## The mutex -/

/-- What a statement does to the mutex or to the shared chain: `mutex.Lock()`,
`mutex.Unlock()`, a read of the chain or of a block in it, a write to the
chain or to a block in it. -/
inductive Event where
  | lock
  | unlock
  | read
  | write
  deriving DecidableEq, Repr

/-- The mutex calls and chain accesses of `NewBlock`, in program order:
`mutex.Lock()`, the append (a read and a write of the slice),
`mutex.Unlock()`, and the read of `DisplayBlocks`. -/
def NewBlock.events : List Event :=
  [.lock, .read, .write, .unlock, .read]

/-- The mutex calls and chain accesses of `ChangeBlock`, in program order: the
read of `len(blockchain)`; inside the chain the write of `Transaction`, the
read for `CalculateHash`, the write of `Hash`, and the read of
`DisplayBlocks`. -/
def ChangeBlock.events (blockchain : List Block) (index : Int) : List Event :=
  if index < 0 ∨ index ≥ blockchain.length then [.read]
  else [.read, .write, .read, .write, .read]

/-- Whether every write of an event sequence that starts with the mutex `held`
or not happens while the mutex is held. -/
def writesLocked : Bool → List Event → Bool
  | _, [] => true
  | _, .lock :: es => writesLocked true es
  | _, .unlock :: es => writesLocked false es
  | held, .read :: es => writesLocked held es
  | held, .write :: es => held && writesLocked held es

/-! ## The chain as a slice of pointers -/

/-- Run-time panics of the program on the pointer-level state, and exhaustion
of a loop budget. -/
inductive Panic where
  | indexOutOfRange
  | nilDereference
  | invalidPointer
  | outOfFuel
  deriving DecidableEq, Repr

/-- The program state with `blockchain []*Block` as the slice of pointers it
is: `heap` holds the blocks allocated so far, in the order of allocation, and
a pointer is nil (`none`) or the address of a block in the heap. -/
structure Store where
  heap : List Block
  blockchain : List (Option Nat)
  deriving DecidableEq

namespace Store

/-- The state at program start: `var blockchain []*Block`. -/
def empty : Store := ⟨[], []⟩

/-- The block `*blockchain[i]`: a bounds-checked index and a dereference. -/
def deref (s : Store) (i : Nat) : Except Panic Block :=
  match s.blockchain[i]? with
  | none => .error .indexOutOfRange
  | some none => .error .nilDereference
  | some (some a) =>
    match s.heap[a]? with
    | none => .error .invalidPointer
    | some b => .ok b

/-- NewBlock on the pointer-level state: the block is allocated, and its
address is appended to the chain and returned. -/
def NewBlock (s : Store) (transaction : GoString) (nonce : Int) (previousHash : GoString) :
    Store × Nat :=
  let block : Block := ⟨transaction, nonce, previousHash, []⟩
  let block := { block with Hash := CalculateHash block }
  (⟨s.heap ++ [block], s.blockchain ++ [some s.heap.length]⟩, s.heap.length)

/-- ChangeBlock on the pointer-level state: the block `blockchain[index]`
points to is overwritten in the heap. -/
def ChangeBlock (s : Store) (index : Int) (transaction : GoString) :
    Except Panic (Store × String) :=
  if index < 0 ∨ index ≥ s.blockchain.length then
    .ok (s, invalidIndexMessage)
  else
    match s.blockchain[index.toNat]? with
    | none => .error .indexOutOfRange
    | some none => .error .nilDereference
    | some (some a) =>
      match s.heap[a]? with
      | none => .error .invalidPointer
      | some b =>
        let b := { b with Transaction := transaction }
        let b := { b with Hash := CalculateHash b }
        .ok (⟨s.heap.set a b, s.blockchain⟩, changedMessage)

/-- The loop of `VerifyChain` on the pointer-level state. -/
def VerifyChain.loop (s : Store) : Nat → Nat → Except Panic String
  | 0, _ => .error .outOfFuel
  | fuel + 1, i =>
    if i < s.blockchain.length then
      match s.deref i, s.deref (i - 1) with
      | .ok b, .ok a =>
        if b.PreviousHash ≠ a.Hash then .ok invalidMessage
        else VerifyChain.loop s fuel (i + 1)
      | .error e, _ => .error e
      | _, .error e => .error e
    else .ok validMessage

/-- VerifyChain on the pointer-level state. -/
def VerifyChain (s : Store) : Except Panic String :=
  VerifyChain.loop s (s.blockchain.length + 1) 1

/-- The pointer-level states the program can reach from its start by
`NewBlock` and `ChangeBlock` calls with any arguments. -/
inductive Reachable : Store → Prop where
  | empty : Reachable Store.empty
  | newBlock (s : Store) (t : GoString) (n : Int) (p : GoString) :
      Reachable s → Reachable (Store.NewBlock s t n p).1
  | changeBlock (s s' : Store) (index : Int) (t : GoString) (msg : String) :
      Reachable s → Store.ChangeBlock s index t = .ok (s', msg) → Reachable s'

/-- Every position of the chain holds the address of the block allocated for
it: no pointer is nil, none is shared, none leaves the heap. -/
def WellFormed (s : Store) : Prop :=
  s.blockchain = (List.range s.heap.length).map some

end Store

end Ledger

namespace Ledger

/-- With a budget that covers the rest of the chain the loop finishes, and
its answer says whether a link from index `i` on is broken. -/
theorem VerifyChain.loop_spec (bc : List Block) :
    ∀ (fuel i : Nat), 1 ≤ i → bc.length ≤ fuel + i →
      (VerifyChain.loop bc (fuel + 1) i = .ok validMessage ∧
          ∀ (j : Nat) (_ : i ≤ j) (h : j < bc.length), bc[j].PreviousHash = bc[j - 1].Hash) ∨
      (VerifyChain.loop bc (fuel + 1) i = .ok invalidMessage ∧
          ∃ (j : Nat) (_ : i ≤ j) (h : j < bc.length), bc[j].PreviousHash ≠ bc[j - 1].Hash) := by
  intro fuel
  induction fuel with
  | zero =>
    intro i _ hlen
    left
    have hi : ¬ i < bc.length := by omega
    refine ⟨by simp [VerifyChain.loop, hi], ?_⟩
    intro j hj h
    omega
  | succ fuel ih =>
    intro i hi hlen
    by_cases hlt : i < bc.length
    · have hpred : i - 1 < bc.length := by omega
      by_cases hne : bc[i].PreviousHash = bc[i - 1].Hash
      · have hstep : VerifyChain.loop bc (fuel + 1 + 1) i = VerifyChain.loop bc (fuel + 1) (i + 1) := by
          rw [VerifyChain.loop]
          simp [hlt, hpred, List.getElem?_eq_getElem, hne]
        rcases ih (i + 1) (by omega) (by omega) with ⟨hv, hall⟩ | ⟨hv, j, hj, h, hbad⟩
        · left
          refine ⟨by rw [hstep]; exact hv, ?_⟩
          intro j hj h
          by_cases hji : j = i
          · subst hji
            exact hne
          · exact hall j (by omega) h
        · right
          exact ⟨by rw [hstep]; exact hv, j, by omega, h, hbad⟩
      · right
        refine ⟨?_, i, le_refl i, hlt, hne⟩
        rw [VerifyChain.loop]
        simp [hlt, hpred, List.getElem?_eq_getElem, hne]
    · left
      refine ⟨by simp [VerifyChain.loop, hlt], ?_⟩
      intro j hj h
      omega

theorem validMessage_ne_invalidMessage : validMessage ≠ invalidMessage := by decide

/-- The scan is total: it answers valid exactly on linked chains. -/
theorem VerifyChain_eq_valid_iff (bc : List Block) :
    VerifyChain bc = .ok validMessage ↔ Linked bc := by
  unfold VerifyChain Linked
  rcases VerifyChain.loop_spec bc bc.length 1 (le_refl 1) (by omega) with
    ⟨hv, hall⟩ | ⟨hv, j, hj, h, hbad⟩
  · exact ⟨fun _ => hall, fun _ => hv⟩
  · constructor
    · intro hvalid
      rw [hv] at hvalid
      exact absurd (Except.ok.inj hvalid).symm validMessage_ne_invalidMessage
    · intro hall
      exact absurd (hall j hj h) hbad

/-- The scan is total: it answers invalid exactly on chains with a broken link. -/
theorem VerifyChain_eq_invalid_iff (bc : List Block) :
    VerifyChain bc = .ok invalidMessage ↔ ¬ Linked bc := by
  unfold VerifyChain Linked
  rcases VerifyChain.loop_spec bc bc.length 1 (le_refl 1) (by omega) with
    ⟨hv, hall⟩ | ⟨hv, j, hj, h, hbad⟩
  · constructor
    · intro hinv
      rw [hv] at hinv
      exact absurd (Except.ok.inj hinv) validMessage_ne_invalidMessage
    · intro hnot
      exact absurd hall hnot
  · exact ⟨fun _ hall => hbad (hall j hj h), fun _ => hv⟩

/-! ## `ChangeBlock` -/

theorem invalidIndexMessage_ne_changedMessage : invalidIndexMessage ≠ changedMessage := by decide

/-- Outside the chain `ChangeBlock` prints the error line and returns the chain it got. -/
theorem ChangeBlock_out_of_range (bc : List Block) (index : Int) (text : GoString)
    (h : index < 0 ∨ index ≥ bc.length) :
    ChangeBlock bc index text = .ok (bc, invalidIndexMessage) := by
  unfold ChangeBlock
  rw [if_pos h]

/-- Inside the chain `ChangeBlock` overwrites the one record at `index`. -/
theorem ChangeBlock_in_range (bc : List Block) (i : Nat) (text : GoString) (h : i < bc.length) :
    ChangeBlock bc (i : Int) text =
      .ok (bc.set i ⟨text, bc[i].Nonce, bc[i].PreviousHash,
        CalculateHash ⟨text, bc[i].Nonce, bc[i].PreviousHash, bc[i].Hash⟩⟩, changedMessage) := by
  unfold ChangeBlock
  have hcond : ¬ ((i : Int) < 0 ∨ (i : Int) ≥ bc.length) := by omega
  rw [if_neg hcond]
  simp [List.getElem?_eq_getElem, h]

/-- The hash does not read the stored hash. -/
theorem CalculateHash_congr (a b : Block) (ht : a.Transaction = b.Transaction)
    (hn : a.Nonce = b.Nonce) (hp : a.PreviousHash = b.PreviousHash) :
    CalculateHash a = CalculateHash b := by
  unfold CalculateHash record
  rw [ht, hn, hp]

set_option maxRecDepth 100000

/-! ## Linked chains -/

theorem Linked_iff_chain (bc : List Block) :
    Linked bc ↔ List.Chain' (fun a b : Block => b.PreviousHash = a.Hash) bc := by
  rw [List.chain'_iff_get]
  unfold Linked
  constructor
  · intro h i hi
    have hlink := h (i + 1) (by omega) (by omega)
    simpa using hlink
  · intro h i hi hlt
    obtain ⟨k, rfl⟩ : ∃ k, i = k + 1 := ⟨i - 1, by omega⟩
    have hlink := h k (by omega)
    simpa using hlink

/-- Appending a record keeps the chain linked exactly when the record points
to the last one. -/
theorem Linked_append_singleton (bc : List Block) (b : Block) :
    Linked (bc ++ [b]) ↔ Linked bc ∧ ∀ a ∈ bc.getLast?, b.PreviousHash = a.Hash := by
  simp only [Linked_iff_chain, List.chain'_append, List.chain'_singleton, true_and,
    List.head?_cons, Option.mem_def, Option.some.injEq, forall_eq']

theorem linkHash_of_getLast (sentinel : GoString) (bc : List Block) :
    ∀ a ∈ bc.getLast?, linkHash sentinel bc = a.Hash := by
  intro a ha
  rw [Option.mem_def] at ha
  simp [linkHash, ha]

theorem Linked_foldl_NewBlock (sentinel : GoString) (txs : List (GoString × Int)) :
    ∀ bc : List Block, Linked bc →
      Linked (txs.foldl (fun bc tx => (NewBlock bc tx.1 tx.2 (linkHash sentinel bc)).1) bc) := by
  induction txs with
  | nil => intro bc h; exact h
  | cons tx txs ih =>
    intro bc h
    rw [List.foldl_cons]
    apply ih
    exact (Linked_append_singleton bc _).mpr ⟨h, linkHash_of_getLast sentinel bc⟩

/-- After a change inside the chain the link to the successor holds exactly
when the new hash is the old one. -/
theorem Linked_set_iff (bc : List Block) (i : Nat) (b : Block) (h : i + 1 < bc.length)
    (hp : b.PreviousHash = bc[i].PreviousHash) (hl : Linked bc) :
    Linked (bc.set i b) ↔ b.Hash = bc[i].Hash := by
  unfold Linked at *
  constructor
  · intro hs
    have h1 := hs (i + 1) (by omega) (by simpa using h)
    have h2 := hl (i + 1) (by omega) h
    simp only [List.getElem_set_ne (Nat.ne_of_lt (Nat.lt_succ_self i)), Nat.add_sub_cancel,
      List.getElem_set_self] at h1
    simp only [Nat.add_sub_cancel] at h2
    rw [← h1, h2]
  · intro hb j hj hlt
    have hlt' : j < bc.length := by simpa using hlt
    have hold := hl j hj hlt'
    simp only [List.getElem_set]
    by_cases h1 : i = j
    · subst h1
      have h2 : ¬ i = i - 1 := by omega
      simp only [if_true, h2, if_false]
      rw [hp]
      exact hold
    · by_cases h2 : i = j - 1
      · subst h2
        simp only [h1, if_false, if_true]
        rw [hb]
        exact hold
      · simp only [h1, h2, if_false]
        exact hold

/-! ## The hash input and its encoding -/

theorem hex.fromHexChar_hextable : ∀ v : Fin 256,
    hex.fromHexChar (hex.hextable.getD (v.val >>> 4) 0) * 16 +
      hex.fromHexChar (hex.hextable.getD (v.val &&& 0x0f) 0) = v.val := by
  decide

theorem hex.EncodeToString_injective : Function.Injective hex.EncodeToString := by
  intro x
  induction x with
  | nil =>
    intro y h
    cases y with
    | nil => rfl
    | cons b y => simp [hex.EncodeToString] at h
  | cons a x ih =>
    intro y h
    cases y with
    | nil => simp [hex.EncodeToString] at h
    | cons b y =>
      simp only [hex.EncodeToString, List.flatMap_cons, List.cons_append, List.nil_append,
        List.cons.injEq] at h
      obtain ⟨h1, h2, h3⟩ := h
      have hab : a = b := by
        apply Fin.ext
        rw [← hex.fromHexChar_hextable a, ← hex.fromHexChar_hextable b, h1, h2]
      rw [hab, ih h3]

/-- Equal hashes come from equal hash inputs or from a SHA-256 collision. -/
theorem CalculateHash_eq_imp (a b : Block) (h : CalculateHash a = CalculateHash b) :
    record a = record b ∨ Collision (record a) (record b) := by
  by_cases hr : record a = record b
  · exact Or.inl hr
  · exact Or.inr ⟨hr, hex.EncodeToString_injective h⟩

theorem sha256.Sum256_length (msg : GoString) : (sha256.Sum256 msg).length = 32 := by
  simp [sha256.Sum256, sha256.putUint32]

theorem hex.EncodeToString_length (src : GoString) :
    (hex.EncodeToString src).length = 2 * src.length := by
  induction src with
  | nil => rfl
  | cons v src ih =>
    have hcons : hex.EncodeToString (v :: src) =
        hex.hextable.getD (v.val >>> 4) 0 :: hex.hextable.getD (v.val &&& 0x0f) 0 ::
          hex.EncodeToString src := rfl
    rw [hcons, List.length_cons, List.length_cons, List.length_cons, ih]
    omega

theorem CalculateHash_length (r : Block) : (CalculateHash r).length = 64 := by
  unfold CalculateHash
  rw [hex.EncodeToString_length, sha256.Sum256_length]

/-- There are more transaction texts than hashes: with the nonce and the
previous hash fixed, two different texts have the same hash. -/
theorem CalculateHash_collides (n : Int) (p h : GoString) :
    ∃ t t' : GoString, t ≠ t' ∧
      CalculateHash ⟨t, n, p, h⟩ = CalculateHash ⟨t', n, p, h⟩ := by
  by_contra hno
  have hinj : Function.Injective (fun t : GoString => CalculateHash ⟨t, n, p, h⟩) := by
    intro t t' heq
    by_contra hne
    exact hno ⟨t, t', hne, heq⟩
  exact Set.infinite_of_injective_forall_mem hinj (fun t => CalculateHash_length ⟨t, n, p, h⟩)
    (List.finite_length_eq (Fin 256) 64)

/-! ## `string(int)` on Unicode scalar values -/

theorem byte_val (x : Nat) : (byte x).val = x % 256 := rfl

theorem continuation_byte : ∀ b : Fin 256,
    (byte (0x80 ||| (b.val &&& 0x3F))).val = 128 + b.val % 64 := by decide

theorem lead2_byte : ∀ b : Fin 256, b.val < 32 → (byte (0xC0 ||| b.val)).val = 192 + b.val := by
  decide

theorem lead3_byte : ∀ b : Fin 256, b.val < 16 → (byte (0xE0 ||| b.val)).val = 224 + b.val := by
  decide

theorem lead4_byte : ∀ b : Fin 256, b.val < 8 → (byte (0xF0 ||| b.val)).val = 240 + b.val := by
  decide

/-- The encoding of a scalar value in arithmetic form. -/
theorem encoderune_scalar (i : Nat) (h : validScalar (i : Int)) :
    (encoderune (i : Int)).map Fin.val =
      if i ≤ 0x7F then [i]
      else if i ≤ 0x7FF then [192 + i / 64, 128 + i % 64]
      else if i ≤ 0xFFFF then [224 + i / 4096, 128 + i / 64 % 64, 128 + i % 64]
      else [240 + i / 262144, 128 + i / 4096 % 64, 128 + i / 64 % 64, 128 + i % 64] := by
  obtain ⟨h0, h1, h2⟩ := h
  have hu : uint32 (i : Int) = i := by unfold uint32; omega
  unfold encoderune
  simp only [hu]
  have s6 : i >>> 6 = i / 64 := Nat.shiftRight_eq_div_pow i 6
  have s12 : i >>> 12 = i / 4096 := Nat.shiftRight_eq_div_pow i 12
  have s18 : i >>> 18 = i / 262144 := Nat.shiftRight_eq_div_pow i 18
  by_cases c1 : i ≤ 0x7F
  · simp only [c1, if_true, List.map_cons, List.map_nil, byte_val]
    congr 1
    omega
  · by_cases c2 : i ≤ 0x7FF
    · simp only [c1, c2, if_true, if_false, List.map_cons, List.map_nil]
      rw [continuation_byte, lead2_byte _ (by rw [byte_val]; omega), byte_val, byte_val, s6]
      congr 1
      · omega
      · congr 1; omega
    · have c3 : ¬ (i > 0x10FFFF ∨ (0xD800 ≤ i ∧ i ≤ 0xDFFF)) := by omega
      simp only [c1, c2, c3, if_false]
      by_cases c4 : i ≤ 0xFFFF
      · simp only [c4, if_true, List.map_cons, List.map_nil]
        rw [continuation_byte, continuation_byte, lead3_byte _ (by rw [byte_val]; omega),
          byte_val, byte_val, byte_val, s6, s12]
        congr 1
        · omega
        · congr 1
          · omega
          · congr 1; omega
      · simp only [c4, if_false, List.map_cons, List.map_nil]
        rw [continuation_byte, continuation_byte, continuation_byte,
          lead4_byte _ (by rw [byte_val]; omega),
          byte_val, byte_val, byte_val, byte_val, s6, s12, s18]
        congr 1
        · omega
        · congr 1
          · omega
          · congr 1
            · omega
            · congr 1; omega

theorem intstring_scalar (v : Int) (h : validScalar v) : intstring v = encoderune v := by
  obtain ⟨h0, h1, _⟩ := h
  have hr : rune v = v := by unfold rune; omega
  unfold intstring
  rw [hr]
  simp

theorem intstring_injective_on_scalars (n m : Int) (hn : validScalar n) (hm : validScalar m)
    (h : intstring n = intstring m) : n = m := by
  rw [intstring_scalar n hn, intstring_scalar m hm] at h
  obtain ⟨i, rfl⟩ : ∃ i : Nat, n = (i : Int) := ⟨n.toNat, by have := hn.1; omega⟩
  obtain ⟨j, rfl⟩ : ∃ j : Nat, m = (j : Int) := ⟨m.toNat, by have := hm.1; omega⟩
  have h' := congrArg (List.map Fin.val) h
  rw [encoderune_scalar i hn, encoderune_scalar j hm] at h'
  have hi := hn.2.1
  have hj := hm.2.1
  congr 1
  split_ifs at h' <;> simp only [List.cons.injEq, and_true] at h' <;> omega

/-! ## Changes that keep a chain linked -/

/-- After a change at `i` that keeps the previous hash, every link of a linked
chain still holds, the one into position `i + 1` apart. -/
theorem Linked_set_link (bc : List Block) (i : Nat) (b : Block) (h : i < bc.length)
    (hp : b.PreviousHash = bc[i].PreviousHash) (hl : Linked bc) :
    ∀ (j : Nat) (_ : 1 ≤ j) (hj : j < (bc.set i b).length), j ≠ i + 1 →
      (bc.set i b)[j].PreviousHash = (bc.set i b)[j - 1].Hash := by
  intro j hj hlt hne
  have hlt' : j < bc.length := by simpa using hlt
  have hold := hl j hj hlt'
  simp only [List.getElem_set]
  have h2 : ¬ i = j - 1 := by omega
  by_cases h1 : i = j
  · subst h1
    simp only [if_true, h2, if_false]
    rw [hp]
    exact hold
  · simp only [h1, h2, if_false]
    exact hold

/-- A change of the last record that keeps its previous hash keeps the chain linked. -/
theorem Linked_set_last (bc : List Block) (i : Nat) (b : Block) (h : i + 1 = bc.length)
    (hp : b.PreviousHash = bc[i].PreviousHash) (hl : Linked bc) : Linked (bc.set i b) := by
  intro j hj hlt
  have hlt' : j < bc.length := by simpa using hlt
  exact Linked_set_link bc i b (by omega) hp hl j hj hlt (by omega)

/-- Invalid code points are converted like `runeError`. -/
theorem intstring_invalid (n : Int)
    (hn : n < 0 ∨ (0xD800 ≤ n ∧ n ≤ 0xDFFF) ∨ 0x10FFFF < n) :
    intstring n = intstring 0xFFFD := by
  have hfffd : intstring 0xFFFD = encoderune runeError := by decide
  rw [hfffd]
  unfold intstring
  by_cases hr : rune n = n
  · rw [hr]
    simp only [ne_eq, not_true_eq_false, if_false]
    have hbound : -2147483648 ≤ n ∧ n < 2147483648 := by
      unfold rune at hr
      omega
    have hbad : uint32 n > 0x10FFFF ∨ (0xD800 ≤ uint32 n ∧ uint32 n ≤ 0xDFFF) := by
      unfold uint32
      omega
    have h1 : ¬ uint32 n ≤ 0x7F := by omega
    have h2 : ¬ uint32 n ≤ 0x7FF := by omega
    have he : encoderune runeError =
        [byte (0xE0 ||| byte (uint32 runeError >>> 12)),
          byte (0x80 ||| (byte (uint32 runeError >>> 6) &&& 0x3F)),
          byte (0x80 ||| (byte (uint32 runeError) &&& 0x3F))] := by decide
    rw [he]
    unfold encoderune
    have h3 : uint32 runeError ≤ 0xFFFF := by decide
    simp only [h1, h2, hbad, h3, if_true, if_false]
  · simp only [ne_eq, hr, not_false_eq_true, if_true]

theorem hex.hextable_digit : ∀ v : Fin 256,
    hex.hextable.getD (v.val >>> 4) 0 ∈ str "0123456789abcdef" ∧
      hex.hextable.getD (v.val &&& 0x0f) 0 ∈ str "0123456789abcdef" := by
  decide

theorem hex.EncodeToString_digits (src : GoString) :
    ∀ c ∈ hex.EncodeToString src, c ∈ str "0123456789abcdef" := by
  intro c hc
  simp only [hex.EncodeToString, List.mem_flatMap, List.mem_cons, List.mem_singleton,
    List.not_mem_nil, or_false] at hc
  obtain ⟨v, _, hv | hv⟩ := hc
  · rw [hv]; exact (hex.hextable_digit v).1
  · rw [hv]; exact (hex.hextable_digit v).2

/-- Writing back the element a position holds changes nothing. -/
theorem set_getElem_same (l : List Block) (i : Nat) (h : i < l.length) : l.set i l[i] = l := by
  apply List.ext_getElem (by simp)
  intro j h1 h2
  simp only [List.getElem_set]
  split
  · next hij => subst hij; rfl
  · rfl

/-- A record with a fresh hash is rebuilt by recomputing the hash of its fields. -/
theorem Block_rebuild (b : Block) (x : GoString) (hb : b.Hash = CalculateHash b) :
    (⟨b.Transaction, b.Nonce, b.PreviousHash,
      CalculateHash ⟨b.Transaction, b.Nonce, b.PreviousHash, x⟩⟩ : Block) = b := by
  cases b with
  | mk T N P H =>
    simp only at hb
    simp only [Block.mk.injEq, true_and]
    rw [hb]
    exact CalculateHash_congr _ _ rfl rfl rfl

/-! ## The pointer-level state -/

theorem Store.WellFormed_length (s : Store) (hwf : s.WellFormed) :
    s.blockchain.length = s.heap.length := by
  rw [hwf]
  simp

theorem Store.WellFormed_getElem? (s : Store) (hwf : s.WellFormed) (i : Nat)
    (h : i < s.heap.length) : s.blockchain[i]? = some (some i) := by
  rw [hwf]
  simp [h]

theorem Store.deref_of_wellFormed (s : Store) (hwf : s.WellFormed) (i : Nat)
    (h : i < s.heap.length) : s.deref i = .ok s.heap[i] := by
  unfold Store.deref
  rw [Store.WellFormed_getElem? s hwf i h]
  simp [List.getElem?_eq_getElem h]

theorem Store.NewBlock_wellFormed (s : Store) (hwf : s.WellFormed) (t : GoString) (n : Int)
    (p : GoString) : (Store.NewBlock s t n p).1.WellFormed := by
  unfold Store.WellFormed at *
  simp only [Store.NewBlock, List.length_append, List.length_singleton]
  rw [List.range_succ, List.map_append, hwf]
  simp

/-- On a well-formed state `ChangeBlock` does not panic, and it does to the
heap what `ChangeBlock` on lists does to the chain. -/
theorem Store.ChangeBlock_of_wellFormed (s : Store) (hwf : s.WellFormed) (index : Int)
    (t : GoString) :
    ∃ (heap : List Block) (msg : String),
      Store.ChangeBlock s index t = .ok (⟨heap, s.blockchain⟩, msg) ∧
      Ledger.ChangeBlock s.heap index t = .ok (heap, msg) ∧
      heap.length = s.heap.length := by
  have hlen := Store.WellFormed_length s hwf
  by_cases hout : index < 0 ∨ index ≥ s.heap.length
  · refine ⟨s.heap, invalidIndexMessage, ?_, ChangeBlock_out_of_range s.heap index t hout, rfl⟩
    unfold Store.ChangeBlock
    rw [hlen, if_pos hout]
  · obtain ⟨i, rfl⟩ : ∃ i : Nat, index = (i : Int) := ⟨index.toNat, by omega⟩
    have hi : i < s.heap.length := by omega
    refine ⟨_, changedMessage, ?_, ChangeBlock_in_range s.heap i t hi, by simp⟩
    unfold Store.ChangeBlock
    rw [hlen, if_neg hout]
    simp [Store.WellFormed_getElem? s hwf i hi, List.getElem?_eq_getElem hi]

theorem Store.Reachable_wellFormed (s : Store) (hreach : Store.Reachable s) : s.WellFormed := by
  induction hreach with
  | empty => rfl
  | newBlock s t n p _ ih => exact Store.NewBlock_wellFormed s ih t n p
  | changeBlock s s' index t msg _ hstep ih =>
    obtain ⟨heap, msg', hs, _, hlen⟩ := Store.ChangeBlock_of_wellFormed s ih index t
    rw [hs] at hstep
    have hs' := congrArg Prod.fst (Except.ok.inj hstep)
    simp only at hs'
    subst hs'
    unfold Store.WellFormed at *
    simp only [hlen]
    exact ih

/-- On a well-formed state the scan gives the answer the scan of the heap gives. -/
theorem Store.VerifyChain.loop_of_wellFormed (s : Store) (hwf : s.WellFormed) :
    ∀ (fuel i : Nat) (msg : String), 1 ≤ i →
      Ledger.VerifyChain.loop s.heap fuel i = .ok msg →
      Store.VerifyChain.loop s fuel i = .ok msg := by
  have hlen := Store.WellFormed_length s hwf
  intro fuel
  induction fuel with
  | zero =>
    intro i msg _ h
    simp [Ledger.VerifyChain.loop] at h
  | succ fuel ih =>
    intro i msg hi h
    rw [Store.VerifyChain.loop, hlen]
    rw [Ledger.VerifyChain.loop] at h
    by_cases hlt : i < s.heap.length
    · have hpred : i - 1 < s.heap.length := by omega
      rw [if_pos hlt] at h ⊢
      rw [Store.deref_of_wellFormed s hwf i hlt, Store.deref_of_wellFormed s hwf (i - 1) hpred]
      simp only [List.getElem?_eq_getElem hlt, List.getElem?_eq_getElem hpred] at h
      by_cases hne : s.heap[i].PreviousHash = s.heap[i - 1].Hash
      · simp only [hne, ne_eq, not_true_eq_false, if_false] at h ⊢
        exact ih (i + 1) msg (by omega) h
      · simp only [hne, ne_eq, not_false_eq_true, if_true] at h ⊢
        exact congrArg Except.ok (Except.ok.inj h)
    · rw [if_neg hlt] at h ⊢
      exact congrArg Except.ok (Except.ok.inj h)

theorem Store.VerifyChain_of_wellFormed (s : Store) (hwf : s.WellFormed) (msg : String)
    (h : Ledger.VerifyChain s.heap = .ok msg) : Store.VerifyChain s = .ok msg := by
  unfold Store.VerifyChain
  rw [Store.WellFormed_length s hwf]
  exact Store.VerifyChain.loop_of_wellFormed s hwf _ 1 msg (le_refl 1) h

/-- The scan of a list answers valid or invalid. -/
theorem VerifyChain_total (bc : List Block) :
    VerifyChain bc = .ok validMessage ∨ VerifyChain bc = .ok invalidMessage := by
  by_cases h : Linked bc
  · exact Or.inl ((VerifyChain_eq_valid_iff bc).mpr h)
  · exact Or.inr ((VerifyChain_eq_invalid_iff bc).mpr h)

/-! ## Reachable chains -/

/-- Every record of a reachable chain stores the hash of its current fields. -/
theorem Reachable_getElem_fresh (bc : List Block) (hreach : Reachable bc) :
    ∀ (i : Nat) (h : i < bc.length), bc[i].Hash = CalculateHash bc[i] := by
  induction hreach with
  | empty =>
    intro i h
    exact absurd h (Nat.not_lt_zero i)
  | newBlock bc t n p _ ih =>
    intro i h
    have hlen : i < bc.length + 1 := by simpa [NewBlock] using h
    by_cases hi : i < bc.length
    · have hget : (NewBlock bc t n p).1[i] = bc[i] := by
        simp [NewBlock, List.getElem_append_left hi]
      rw [hget]
      exact ih i hi
    · have hi' : i = bc.length := by omega
      subst hi'
      have hget : (NewBlock bc t n p).1[bc.length] =
          ⟨t, n, p, CalculateHash ⟨t, n, p, []⟩⟩ := by
        simp [NewBlock]
      rw [hget]
      exact CalculateHash_congr _ _ rfl rfl rfl
  | changeBlock bc bc' index t msg _ hstep ih =>
    intro i h
    by_cases hout : index < 0 ∨ index ≥ bc.length
    · rw [ChangeBlock_out_of_range bc index t hout] at hstep
      have hbc : bc = bc' := congrArg Prod.fst (Except.ok.inj hstep)
      subst hbc
      exact ih i h
    · obtain ⟨k, rfl⟩ : ∃ k : Nat, index = (k : Int) := ⟨index.toNat, by omega⟩
      have hk : k < bc.length := by omega
      rw [ChangeBlock_in_range bc k t hk] at hstep
      have hbc := congrArg Prod.fst (Except.ok.inj hstep)
      simp only at hbc
      subst hbc
      have hi : i < bc.length := by simpa using h
      simp only [List.getElem_set]
      split
      · exact CalculateHash_congr _ _ rfl rfl rfl
      · exact ih i hi

/-- Appends from a reachable chain give a reachable chain. -/
theorem Reachable_foldl_NewBlock (sentinel : GoString) (txs : List (GoString × Int)) :
    ∀ bc : List Block, Reachable bc →
      Reachable (txs.foldl (fun bc tx => (NewBlock bc tx.1 tx.2 (linkHash sentinel bc)).1) bc) := by
  induction txs with
  | nil => intro bc h; exact h
  | cons tx txs ih =>
    intro bc h
    rw [List.foldl_cons]
    exact ih _ (Reachable.newBlock bc tx.1 tx.2 (linkHash sentinel bc) h)

theorem Linked_nil : Linked [] := by
  intro i _ h
  exact absurd h (Nat.not_lt_zero i)

/-- A nonce that is a scalar value other than U+FFFD has a conversion of its own. -/
theorem intstring_ne_of_scalar (n m : Int) (hne : n ≠ m)
    (hn : validScalar n ∧ n ≠ 0xFFFD) : intstring n ≠ intstring m := by
  intro heq
  by_cases hm : validScalar m
  · exact hne (intstring_injective_on_scalars n m hn.1 hm heq)
  · have hbad : m < 0 ∨ (0xD800 ≤ m ∧ m ≤ 0xDFFF) ∨ 0x10FFFF < m := by
      unfold validScalar at hm
      omega
    rw [intstring_invalid m hbad] at heq
    have hfffd : validScalar 0xFFFD := by
      unfold validScalar
      omega
    exact hn.2 (intstring_injective_on_scalars n 0xFFFD hn.1 hfffd heq)

/-! ## The claims -/

/-- C1: `VerifyChain` prints "Blockchain is valid." exactly when every record
at a position `i` with `1 ≤ i < len` stores as previous hash the hash its
predecessor stores now, and prints "Blockchain is not valid!" exactly
otherwise; in particular every chain of length 0 or 1 is reported valid. -/
theorem VerifyChain_reports_linkage (blockchain : List Block) :
    (VerifyChain blockchain = .ok "Blockchain is valid." ↔
      ∀ (i : Nat) (_ : 1 ≤ i) (h : i < blockchain.length),
        blockchain[i].PreviousHash = blockchain[i - 1].Hash) ∧
    (VerifyChain blockchain = .ok "Blockchain is not valid!" ↔
      ¬ ∀ (i : Nat) (_ : 1 ≤ i) (h : i < blockchain.length),
        blockchain[i].PreviousHash = blockchain[i - 1].Hash) ∧
    (blockchain.length ≤ 1 → VerifyChain blockchain = .ok "Blockchain is valid.") := by
  refine ⟨VerifyChain_eq_valid_iff blockchain, VerifyChain_eq_invalid_iff blockchain, ?_⟩
  intro hlen
  refine (VerifyChain_eq_valid_iff blockchain).mpr ?_
  intro i hi h
  omega

/-- C2 (amended): on a chain reachable by `NewBlock` and `ChangeBlock` calls
that `VerifyChain` reports valid, for every index `i` before the last record
and every text different from the transaction record `i` holds,
`ChangeBlock(i, text)` succeeds and `VerifyChain` then reports invalid, unless
the hash inputs of record `i` with the new and with the old text are different
inputs with the same SHA-256 digest. -/
theorem ChangeBlock_tamper_detected (blockchain : List Block) (i : Nat) (text : GoString)
    (hreach : Reachable blockchain)
    (hvalid : VerifyChain blockchain = .ok "Blockchain is valid.")
    (h : i + 1 < blockchain.length)
    (htext : text ≠ blockchain[i].Transaction) :
    ∃ bc : List Block,
      ChangeBlock blockchain (i : Int) text = .ok (bc, "Block changed:") ∧
      (VerifyChain bc = .ok "Blockchain is not valid!" ∨
        Collision
          (record ⟨text, blockchain[i].Nonce, blockchain[i].PreviousHash, blockchain[i].Hash⟩)
          (record blockchain[i])) := by
  refine ⟨_, ChangeBlock_in_range blockchain i text (by omega), ?_⟩
  have hiff := Linked_set_iff blockchain i
    ⟨text, blockchain[i].Nonce, blockchain[i].PreviousHash,
      CalculateHash ⟨text, blockchain[i].Nonce, blockchain[i].PreviousHash, blockchain[i].Hash⟩⟩
    h rfl ((VerifyChain_eq_valid_iff blockchain).mp hvalid)
  by_cases hl : Linked (blockchain.set i
      ⟨text, blockchain[i].Nonce, blockchain[i].PreviousHash,
        CalculateHash ⟨text, blockchain[i].Nonce, blockchain[i].PreviousHash,
          blockchain[i].Hash⟩⟩)
  · right
    have hhash : CalculateHash ⟨text, blockchain[i].Nonce, blockchain[i].PreviousHash,
        blockchain[i].Hash⟩ = CalculateHash blockchain[i] :=
      (hiff.mp hl).trans (Reachable_getElem_fresh blockchain hreach i (by omega))
    rcases CalculateHash_eq_imp _ _ hhash with hrec | hcol
    · simp only [record, List.append_left_inj] at hrec
      exact absurd hrec htext
    · exact hcol
  · left
    exact (VerifyChain_eq_invalid_iff _).mpr hl

/-- C2 (amended) at the scenario chain: record 1 gets another text, and the
change is detected. -/
theorem ChangeBlock_tamper_detected_witness :
    Reachable scenarioChain ∧
    VerifyChain scenarioChain = .ok "Blockchain is valid." ∧
    1 + 1 < scenarioChain.length ∧
    str "Fatima to Ali: 25" ≠ scenarioChain[1].Transaction ∧
    (∃ bc : List Block,
      ChangeBlock scenarioChain ((1 : Nat) : Int) (str "Fatima to Ali: 25") =
        .ok (bc, "Block changed:") ∧
      (VerifyChain bc = .ok "Blockchain is not valid!" ∨
        Collision
          (record ⟨str "Fatima to Ali: 25", scenarioChain[1].Nonce,
            scenarioChain[1].PreviousHash, scenarioChain[1].Hash⟩)
          (record scenarioChain[1]))) ∧
    ∃ bc : List Block,
      ChangeBlock scenarioChain ((1 : Nat) : Int) (str "Fatima to Ali: 25") =
        .ok (bc, "Block changed:") ∧
      VerifyChain bc = .ok "Blockchain is not valid!" :=
  ⟨Reachable_foldl_NewBlock (str "0")
      [(str "Ahmed to Fatima: 50", 1), (str "Fatima to Zain: 20", 2), (str "Zain to Sara: 30", 3)]
      [] Reachable.empty,
    by decide, by decide, by decide,
    ChangeBlock_tamper_detected scenarioChain 1 (str "Fatima to Ali: 25")
      (Reachable_foldl_NewBlock (str "0")
        [(str "Ahmed to Fatima: 50", 1), (str "Fatima to Zain: 20", 2),
          (str "Zain to Sara: 30", 3)]
        [] Reachable.empty)
      (by decide) (by decide) (by decide),
    _, rfl, by decide⟩

/-- C2 as stated fails: (1) on the scenario chain, reachable and valid,
`ChangeBlock(0, text)` with the text record 0 holds leaves the chain valid;
(2) texts being more than hashes, some reachable valid chain of two records
stays valid after `ChangeBlock(0, text)` with a text record 0 does not hold. -/
theorem ChangeBlock_tamper_undetected :
    (Reachable scenarioChain ∧
      VerifyChain scenarioChain = .ok "Blockchain is valid." ∧
      2 ≤ scenarioChain.length ∧ 0 < scenarioChain.length - 1 ∧
      ∃ bc : List Block,
        ChangeBlock scenarioChain 0 (str "Ahmed to Fatima: 50") = .ok (bc, "Block changed:") ∧
        VerifyChain bc = .ok "Blockchain is valid.") ∧
    (∃ (blockchain : List Block) (text : GoString),
      Reachable blockchain ∧
      VerifyChain blockchain = .ok "Blockchain is valid." ∧
      blockchain.length = 2 ∧
      blockchain.head?.map Block.Transaction ≠ some text ∧
      ∃ bc : List Block,
        ChangeBlock blockchain 0 text = .ok (bc, "Block changed:") ∧
        VerifyChain bc = .ok "Blockchain is valid.") := by
  refine ⟨⟨Reachable_foldl_NewBlock (str "0")
      [(str "Ahmed to Fatima: 50", 1), (str "Fatima to Zain: 20", 2), (str "Zain to Sara: 30", 3)]
      [] Reachable.empty, by decide, by decide, by decide, _, rfl, by decide⟩, ?_⟩
  obtain ⟨t, t', hne, hcol⟩ := CalculateHash_collides 1 (str "0") []
  have hreach : Reachable (buildChain (str "0") [(t, 1), (str "b", 2)]) :=
    Reachable_foldl_NewBlock (str "0") [(t, 1), (str "b", 2)] [] Reachable.empty
  have hlinked : Linked (buildChain (str "0") [(t, 1), (str "b", 2)]) :=
    Linked_foldl_NewBlock (str "0") [(t, 1), (str "b", 2)] [] Linked_nil
  have hlen : 0 + 1 < (buildChain (str "0") [(t, 1), (str "b", 2)]).length := by
    simp [buildChain, NewBlock]
  have h0 : (buildChain (str "0") [(t, 1), (str "b", 2)])[0] =
      ⟨t, 1, str "0", CalculateHash ⟨t, 1, str "0", []⟩⟩ := by
    simp [buildChain, NewBlock, linkHash]
  refine ⟨buildChain (str "0") [(t, 1), (str "b", 2)], t', hreach,
    (VerifyChain_eq_valid_iff _).mpr hlinked, by simp [buildChain, NewBlock], ?_, _,
    ChangeBlock_in_range _ 0 t' (by omega), ?_⟩
  · simp only [buildChain, List.foldl_cons, List.foldl_nil, NewBlock, List.nil_append,
      List.cons_append, List.head?_cons, Option.map_some', ne_eq, Option.some.injEq]
    exact hne
  · refine (VerifyChain_eq_valid_iff _).mpr ?_
    refine (Linked_set_iff _ 0 ⟨t', _, _, _⟩ hlen rfl hlinked).mpr ?_
    simp only [h0]
    exact (CalculateHash_congr _ _ rfl rfl rfl).trans hcol.symm

/-- C3: `ChangeBlock` reports "Invalid block index" exactly when the index is
negative or at least the length of the chain, and then returns the chain it was
given, equal in length and in every field of every record; so it does for the
indices `-1` and `len(chain)`. -/
theorem ChangeBlock_invalid_index (blockchain : List Block) (index : Int) (text : GoString) :
    ((∃ bc, ChangeBlock blockchain index text = .ok (bc, "Invalid block index")) ↔
      (index < 0 ∨ index ≥ blockchain.length)) ∧
    ((index < 0 ∨ index ≥ blockchain.length) →
      ChangeBlock blockchain index text = .ok (blockchain, "Invalid block index")) ∧
    ChangeBlock blockchain (-1) text = .ok (blockchain, "Invalid block index") ∧
    ChangeBlock blockchain blockchain.length text = .ok (blockchain, "Invalid block index") := by
  refine ⟨⟨?_, fun h => ⟨blockchain, ChangeBlock_out_of_range blockchain index text h⟩⟩,
    ChangeBlock_out_of_range blockchain index text,
    ChangeBlock_out_of_range blockchain (-1) text (Or.inl (by decide)),
    ChangeBlock_out_of_range blockchain blockchain.length text (Or.inr (le_refl _))⟩
  rintro ⟨bc, hbc⟩
  by_contra hin
  obtain ⟨i, rfl⟩ : ∃ i : Nat, index = (i : Int) := ⟨index.toNat, by omega⟩
  have hi : i < blockchain.length := by omega
  rw [ChangeBlock_in_range blockchain i text hi] at hbc
  have hmsg := congrArg Prod.snd (Except.ok.inj hbc)
  exact invalidIndexMessage_ne_changedMessage hmsg.symm

/-- C4: `NewBlock(t, n, p)` turns the chain into the same chain with one record
appended: the length grows by one, every earlier record stays at its position,
and the last record, which is the block returned, carries `t`, `n`, `p` and the
hash `CalculateHash` gives for it. -/
theorem NewBlock_appends (blockchain : List Block) (t : GoString) (n : Int) (p : GoString) :
    (NewBlock blockchain t n p).1 = blockchain ++ [(NewBlock blockchain t n p).2] ∧
    (NewBlock blockchain t n p).1.length = blockchain.length + 1 ∧
    (∀ (i : Nat) (h : i < blockchain.length),
      (NewBlock blockchain t n p).1[i]? = some blockchain[i]) ∧
    (NewBlock blockchain t n p).1.getLast? = some (NewBlock blockchain t n p).2 ∧
    (NewBlock blockchain t n p).2.Transaction = t ∧
    (NewBlock blockchain t n p).2.Nonce = n ∧
    (NewBlock blockchain t n p).2.PreviousHash = p ∧
    (NewBlock blockchain t n p).2.Hash = CalculateHash (NewBlock blockchain t n p).2 := by
  refine ⟨rfl, by simp [NewBlock], ?_, by simp [NewBlock], rfl, rfl, rfl, ?_⟩
  · intro i h
    simp [NewBlock, List.getElem?_append_left h, List.getElem?_eq_getElem h]
  · exact CalculateHash_congr _ _ rfl rfl rfl

/-- C5: for an index `i` inside the chain, `ChangeBlock(i, text)` leaves at
position `i` a record with the new transaction, the old nonce and previous
hash, and as hash the `CalculateHash` of that record, which is the hash of
(`text`, old nonce, old previous hash). -/
theorem ChangeBlock_updates_record (blockchain : List Block) (i : Nat) (text : GoString)
    (h : i < blockchain.length) :
    ∃ (bc : List Block) (h' : i < bc.length),
      ChangeBlock blockchain (i : Int) text = .ok (bc, "Block changed:") ∧
      bc[i].Transaction = text ∧
      bc[i].Nonce = blockchain[i].Nonce ∧
      bc[i].PreviousHash = blockchain[i].PreviousHash ∧
      bc[i].Hash = CalculateHash bc[i] ∧
      bc[i].Hash =
        CalculateHash ⟨text, blockchain[i].Nonce, blockchain[i].PreviousHash, blockchain[i].Hash⟩ := by
  refine ⟨_, by simpa using h, ChangeBlock_in_range blockchain i text h, ?_⟩
  simp only [List.getElem_set_self, true_and, and_true]
  exact CalculateHash_congr _ _ rfl rfl rfl

/-- C5 at a concrete chain: the second of two records is changed. -/
theorem ChangeBlock_updates_record_witness :
    ∃ (bc : List Block) (h' : 1 < bc.length),
      ChangeBlock sampleChain ((1 : Nat) : Int) (str "c") = .ok (bc, "Block changed:") ∧
      bc[1].Transaction = str "c" ∧
      bc[1].Nonce = sampleChain[1].Nonce ∧
      bc[1].PreviousHash = sampleChain[1].PreviousHash ∧
      bc[1].Hash = CalculateHash bc[1] ∧
      bc[1].Hash =
        CalculateHash ⟨str "c", sampleChain[1].Nonce, sampleChain[1].PreviousHash,
          sampleChain[1].Hash⟩ :=
  ChangeBlock_updates_record sampleChain 1 (str "c") (by decide)

/-- C6: for an index `i` inside the chain, `ChangeBlock(i, text)` keeps the
length of the chain and every record at a position other than `i`, in all four
fields; the successor keeps its stored previous hash and hash. -/
theorem ChangeBlock_frame (blockchain : List Block) (i : Nat) (text : GoString)
    (h : i < blockchain.length) :
    ∃ bc : List Block,
      ChangeBlock blockchain (i : Int) text = .ok (bc, "Block changed:") ∧
      bc.length = blockchain.length ∧
      ∀ j : Nat, j ≠ i → bc[j]? = blockchain[j]? := by
  refine ⟨_, ChangeBlock_in_range blockchain i text h, by simp, ?_⟩
  intro j hj
  exact List.getElem?_set_ne (Ne.symm hj)

/-- C6 at a concrete chain: the first of two records is changed. -/
theorem ChangeBlock_frame_witness :
    ∃ bc : List Block,
      ChangeBlock sampleChain ((0 : Nat) : Int) (str "c") = .ok (bc, "Block changed:") ∧
      bc.length = sampleChain.length ∧
      ∀ j : Nat, j ≠ 0 → bc[j]? = sampleChain[j]? :=
  ChangeBlock_frame sampleChain 0 (str "c") (by decide)

/-- C7: from the empty chain, one `NewBlock` call for each (transaction, nonce)
pair, with any sentinel as previous hash of the first record and the hash of
the current last record for every later one, gives a chain that `VerifyChain`
reports valid. -/
theorem buildChain_valid (sentinel : GoString) (txs : List (GoString × Int)) :
    VerifyChain (buildChain sentinel txs) = .ok "Blockchain is valid." := by
  refine (VerifyChain_eq_valid_iff _).mpr ?_
  refine Linked_foldl_NewBlock sentinel txs [] ?_
  intro i hi h
  exact absurd h (Nat.not_lt_zero i)

/-- C8: in every chain reachable from the empty chain by `NewBlock` and
`ChangeBlock` calls with any arguments, every record stores the hash
`CalculateHash` gives for its current transaction, nonce and previous hash. -/
theorem Reachable_hash_fresh (blockchain : List Block) (hreach : Reachable blockchain) :
    ∀ r ∈ blockchain, r.Hash = CalculateHash r := by
  induction hreach with
  | empty => intro r hr; cases hr
  | newBlock bc t n p _ ih =>
    intro r hr
    simp only [NewBlock, List.mem_append, List.mem_singleton] at hr
    rcases hr with hr | rfl
    · exact ih r hr
    · exact CalculateHash_congr _ _ rfl rfl rfl
  | changeBlock bc bc' index t msg _ hstep ih =>
    intro r hr
    by_cases hout : index < 0 ∨ index ≥ bc.length
    · rw [ChangeBlock_out_of_range bc index t hout] at hstep
      have hbc : bc = bc' := congrArg Prod.fst (Except.ok.inj hstep)
      exact ih r (hbc ▸ hr)
    · obtain ⟨i, rfl⟩ : ∃ i : Nat, index = (i : Int) := ⟨index.toNat, by omega⟩
      have hi : i < bc.length := by omega
      rw [ChangeBlock_in_range bc i t hi] at hstep
      have hbc := congrArg Prod.fst (Except.ok.inj hstep)
      simp only at hbc
      subst hbc
      rcases List.mem_or_eq_of_mem_set hr with hr | rfl
      · exact ih r hr
      · exact CalculateHash_congr _ _ rfl rfl rfl

/-- C8 at the chain after one append and one change with an index outside it. -/
theorem Reachable_hash_fresh_witness :
    Reachable (NewBlock [] (str "a") 1 (str "0")).1 ∧
    ∀ r ∈ (NewBlock [] (str "a") 1 (str "0")).1, r.Hash = CalculateHash r :=
  ⟨Reachable.changeBlock _ _ 7 (str "b") invalidIndexMessage
      (Reachable.newBlock [] (str "a") 1 (str "0") Reachable.empty) rfl,
    Reachable_hash_fresh _
      (Reachable.changeBlock _ _ 7 (str "b") invalidIndexMessage
        (Reachable.newBlock [] (str "a") 1 (str "0") Reachable.empty) rfl)⟩

/-- C9 (amended): for every record, changing the transaction, the nonce or the
previous hash to a different value, keeping the other two fields, changes the
output of `CalculateHash`, unless the old and the new hash input are different
inputs with the same SHA-256 digest; for the nonce this is stated when the old
or the new nonce is a Unicode scalar value other than 65533. -/
theorem CalculateHash_sensitive (r : Block) :
    (∀ t : GoString, t ≠ r.Transaction →
      CalculateHash { r with Transaction := t } ≠ CalculateHash r ∨
      Collision (record { r with Transaction := t }) (record r)) ∧
    (∀ n : Int, n ≠ r.Nonce →
      ((validScalar n ∧ n ≠ 65533) ∨ (validScalar r.Nonce ∧ r.Nonce ≠ 65533)) →
      CalculateHash { r with Nonce := n } ≠ CalculateHash r ∨
      Collision (record { r with Nonce := n }) (record r)) ∧
    (∀ p : GoString, p ≠ r.PreviousHash →
      CalculateHash { r with PreviousHash := p } ≠ CalculateHash r ∨
      Collision (record { r with PreviousHash := p }) (record r)) := by
  refine ⟨?_, ?_, ?_⟩
  · intro t ht
    by_cases h : CalculateHash { r with Transaction := t } = CalculateHash r
    · rcases CalculateHash_eq_imp _ _ h with hrec | hcol
      · simp only [record, List.append_left_inj] at hrec
        exact absurd hrec ht
      · exact Or.inr hcol
    · exact Or.inl h
  · intro n hn hscalar
    by_cases h : CalculateHash { r with Nonce := n } = CalculateHash r
    · rcases CalculateHash_eq_imp _ _ h with hrec | hcol
      · simp only [record, List.append_left_inj, List.append_right_inj] at hrec
        rcases hscalar with hs | hs
        · exact absurd hrec (intstring_ne_of_scalar n r.Nonce hn hs)
        · exact absurd hrec.symm (intstring_ne_of_scalar r.Nonce n (Ne.symm hn) hs)
      · exact Or.inr hcol
    · exact Or.inl h
  · intro p hp
    by_cases h : CalculateHash { r with PreviousHash := p } = CalculateHash r
    · rcases CalculateHash_eq_imp _ _ h with hrec | hcol
      · simp only [record, List.append_right_inj] at hrec
        exact absurd hrec hp
      · exact Or.inr hcol
    · exact Or.inl h

/-- C9 as stated fails: records that differ in the nonce alone, by `-1` against
`-2` and by `55296` (a surrogate) against `65533`, have the same hash input and
so the same hash; and with nonce `1` and previous hash "0" two different
transaction texts have the same hash, texts being more than hashes. -/
theorem CalculateHash_nonce_insensitive :
    ((-1 : Int) ≠ -2 ∧
      record ⟨str "x", -1, str "0", []⟩ = record ⟨str "x", -2, str "0", []⟩ ∧
      CalculateHash ⟨str "x", -1, str "0", []⟩ = CalculateHash ⟨str "x", -2, str "0", []⟩) ∧
    ((55296 : Int) ≠ 65533 ∧
      record ⟨str "x", 55296, str "0", []⟩ = record ⟨str "x", 65533, str "0", []⟩ ∧
      CalculateHash ⟨str "x", 55296, str "0", []⟩ =
        CalculateHash ⟨str "x", 65533, str "0", []⟩) ∧
    (∃ t t' : GoString, t ≠ t' ∧
      CalculateHash ⟨t, 1, str "0", []⟩ = CalculateHash ⟨t', 1, str "0", []⟩) := by
  have h1 : record ⟨str "x", -1, str "0", []⟩ = record ⟨str "x", -2, str "0", []⟩ := by decide
  have h2 : record ⟨str "x", 55296, str "0", []⟩ = record ⟨str "x", 65533, str "0", []⟩ := by
    decide
  exact ⟨⟨by decide, h1, congrArg (fun x => hex.EncodeToString (sha256.Sum256 x)) h1⟩,
    ⟨by decide, h2, congrArg (fun x => hex.EncodeToString (sha256.Sum256 x)) h2⟩,
    CalculateHash_collides 1 (str "0") []⟩

/-- C10: after the three appends of the scenario `VerifyChain` reports valid;
after `ChangeBlock(1, "Fatima to Ali: 25")` it reports invalid, the hash of
record 1 being another than the previous hash record 2 still stores. -/
theorem scenario_detects_change :
    scenario = .ok ("Blockchain is valid.", "Blockchain is not valid!") ∧
    VerifyChain scenarioChain = .ok "Blockchain is valid." ∧
    scenarioChain.map Block.Hash =
      [str "73d97a36115d8ac555da728c6b63cb30f4e0e8f38702d161013cce6108b7bd83",
       str "a2e8fa347e5cc81b3a1ae4f094af55ee57a48a6afb57292d2ea584c705f1e59a",
       str "ca5dd10c5c994f3bd54dc4cf6f3f6fae386c9c895401676e7822636be96e1188"] ∧
    ∃ bc : List Block,
      ChangeBlock scenarioChain 1 (str "Fatima to Ali: 25") = .ok (bc, "Block changed:") ∧
      VerifyChain bc = .ok "Blockchain is not valid!" ∧
      bc.map Block.Hash =
        [str "73d97a36115d8ac555da728c6b63cb30f4e0e8f38702d161013cce6108b7bd83",
         str "13032cf7206950313b7676abcb13cf23cb25ed8d10d68a655e770bc15f9e9c31",
         str "ca5dd10c5c994f3bd54dc4cf6f3f6fae386c9c895401676e7822636be96e1188"] ∧
      bc.map Block.PreviousHash =
        [str "0",
         str "73d97a36115d8ac555da728c6b63cb30f4e0e8f38702d161013cce6108b7bd83",
         str "a2e8fa347e5cc81b3a1ae4f094af55ee57a48a6afb57292d2ea584c705f1e59a"] := by
  refine ⟨by decide, by decide, by decide, _, rfl, by decide, by decide, by decide⟩

/-- C11: `CalculateHash` depends on the transaction, the nonce and the previous
hash alone: two records that agree on these three fields have the same hash,
whatever hashes they store, also when transaction and previous hash are empty. -/
theorem CalculateHash_deterministic (a b : Block) (ht : a.Transaction = b.Transaction)
    (hn : a.Nonce = b.Nonce) (hp : a.PreviousHash = b.PreviousHash) :
    CalculateHash a = CalculateHash b ∧
    CalculateHash a =
      hex.EncodeToString (sha256.Sum256 (b.Transaction ++ intstring b.Nonce ++ b.PreviousHash)) := by
  have hrec : record a = record b := by
    unfold record
    rw [ht, hn, hp]
  exact ⟨congrArg (fun x => hex.EncodeToString (sha256.Sum256 x)) hrec,
    congrArg (fun x => hex.EncodeToString (sha256.Sum256 x)) hrec⟩

/-- C11 at two records with empty transaction and previous hash that store
different hashes. -/
theorem CalculateHash_deterministic_witness :
    CalculateHash ⟨[], 7, [], str "x"⟩ = CalculateHash ⟨[], 7, [], str "y"⟩ ∧
    CalculateHash ⟨[], 7, [], str "x"⟩ =
      hex.EncodeToString (sha256.Sum256 (([] : GoString) ++ intstring 7 ++ [])) :=
  CalculateHash_deterministic ⟨[], 7, [], str "x"⟩ ⟨[], 7, [], str "y"⟩ rfl rfl rfl

/-- C12: for every record `CalculateHash` returns the hexadecimal encoding of
the 32-byte (256-bit) SHA-256 digest of the hash input: a string of exactly 64
characters, each one of `0123456789abcdef`. -/
theorem CalculateHash_hex_digest (r : Block) :
    CalculateHash r = hex.EncodeToString (sha256.Sum256 (record r)) ∧
    (sha256.Sum256 (record r)).length = 32 ∧
    (CalculateHash r).length = 64 ∧
    ∀ c ∈ CalculateHash r, c ∈ str "0123456789abcdef" :=
  ⟨rfl, sha256.Sum256_length _, CalculateHash_length r, hex.EncodeToString_digits _⟩

/-- C13 on the code: `NewBlock` writes the chain with the mutex held;
`ChangeBlock` with any chain and index never calls the mutex, and with an index
inside the chain, as in `ChangeBlock(1, ..)` on the scenario chain, it writes
the chain with the mutex not held. -/
theorem ChangeBlock_events_unlocked :
    writesLocked false NewBlock.events = true ∧
    (∀ (blockchain : List Block) (index : Int),
      Event.lock ∉ ChangeBlock.events blockchain index) ∧
    (∀ (blockchain : List Block) (i : Nat), i < blockchain.length →
      writesLocked false (ChangeBlock.events blockchain (i : Int)) = false) ∧
    ChangeBlock.events scenarioChain 1 = [.read, .write, .read, .write, .read] ∧
    writesLocked false (ChangeBlock.events scenarioChain 1) = false := by
  refine ⟨by decide, ?_, ?_, by decide, by decide⟩
  · intro blockchain index
    unfold ChangeBlock.events
    split <;> decide
  · intro blockchain i hi
    have hin : ¬ ((i : Int) < 0 ∨ (i : Int) ≥ blockchain.length) := by omega
    unfold ChangeBlock.events
    rw [if_neg hin]
    decide

/-- C14: in every state the program reaches from its start by `NewBlock` and
`ChangeBlock` calls, every pointer of the chain is non-nil and points to a
block, every indexed access `*blockchain[i]` with `i < len` succeeds,
`VerifyChain` prints one of its two lines without a panic, `ChangeBlock` with
any index and text ends without a panic and prints "Invalid block index"
exactly for an index outside the chain, and `CalculateHash` returns its 64
characters for every record. -/
theorem Store.Reachable_no_panic (s : Store) (hreach : Store.Reachable s) :
    (∀ p ∈ s.blockchain, ∃ (a : Nat) (b : Block), p = some a ∧ s.heap[a]? = some b) ∧
    (∀ i : Nat, i < s.blockchain.length → ∃ b : Block, s.deref i = .ok b) ∧
    (Store.VerifyChain s = .ok "Blockchain is valid." ∨
      Store.VerifyChain s = .ok "Blockchain is not valid!") ∧
    (∀ (index : Int) (t : GoString), ∃ (s' : Store) (msg : String),
      Store.ChangeBlock s index t = .ok (s', msg) ∧
      (msg = "Invalid block index" ↔ (index < 0 ∨ index ≥ s.blockchain.length)) ∧
      (msg = "Invalid block index" ∨ msg = "Block changed:")) ∧
    (∀ r : Block, (CalculateHash r).length = 64) := by
  have hwf := Store.Reachable_wellFormed s hreach
  have hlen := Store.WellFormed_length s hwf
  refine ⟨?_, ?_, ?_, ?_, CalculateHash_length⟩
  · intro p hp
    rw [hwf] at hp
    simp only [List.mem_map, List.mem_range] at hp
    obtain ⟨a, ha, rfl⟩ := hp
    exact ⟨a, s.heap[a], rfl, List.getElem?_eq_getElem ha⟩
  · intro i hi
    exact ⟨s.heap[i], Store.deref_of_wellFormed s hwf i (by omega)⟩
  · rcases VerifyChain_total s.heap with h | h
    · exact Or.inl (Store.VerifyChain_of_wellFormed s hwf _ h)
    · exact Or.inr (Store.VerifyChain_of_wellFormed s hwf _ h)
  · intro index t
    obtain ⟨heap, msg, hs, hl, _⟩ := Store.ChangeBlock_of_wellFormed s hwf index t
    refine ⟨_, msg, hs, ?_⟩
    rw [hlen]
    by_cases hout : index < 0 ∨ index ≥ s.heap.length
    · rw [ChangeBlock_out_of_range s.heap index t hout] at hl
      have hmsg : invalidIndexMessage = msg := congrArg Prod.snd (Except.ok.inj hl)
      subst hmsg
      exact ⟨⟨fun _ => hout, fun _ => rfl⟩, Or.inl rfl⟩
    · obtain ⟨i, rfl⟩ : ∃ i : Nat, index = (i : Int) := ⟨index.toNat, by omega⟩
      rw [ChangeBlock_in_range s.heap i t (by omega)] at hl
      have hmsg : changedMessage = msg := congrArg Prod.snd (Except.ok.inj hl)
      subst hmsg
      refine ⟨⟨fun h => ?_, fun h => absurd h hout⟩, Or.inr rfl⟩
      exact absurd h.symm invalidIndexMessage_ne_changedMessage

/-- C14 at the state after `NewBlock("a", 1, "0")` and `ChangeBlock(0, "b")`. -/
theorem Store.Reachable_no_panic_witness :
    Store.Reachable
      ⟨[⟨str "b", 1, str "0", CalculateHash ⟨str "b", 1, str "0", []⟩⟩], [some 0]⟩ ∧
    Store.VerifyChain
      ⟨[⟨str "b", 1, str "0", CalculateHash ⟨str "b", 1, str "0", []⟩⟩], [some 0]⟩ =
        .ok "Blockchain is valid." ∧
    ∃ (s' : Store) (msg : String),
      Store.ChangeBlock
        ⟨[⟨str "b", 1, str "0", CalculateHash ⟨str "b", 1, str "0", []⟩⟩], [some 0]⟩
        5 (str "c") = .ok (s', msg) ∧
      (msg = "Invalid block index" ∨ msg = "Block changed:") := by
  have hreach : Store.Reachable
      ⟨[⟨str "b", 1, str "0", CalculateHash ⟨str "b", 1, str "0", []⟩⟩], [some 0]⟩ :=
    Store.Reachable.changeBlock (Store.NewBlock Store.empty (str "a") 1 (str "0")).1 _ 0
      (str "b") changedMessage
      (Store.Reachable.newBlock Store.empty (str "a") 1 (str "0") Store.Reachable.empty) rfl
  have hall := Store.Reachable_no_panic _ hreach
  refine ⟨hreach, by decide, ?_⟩
  obtain ⟨s', msg, hs, _, hmsg⟩ := hall.2.2.2.1 5 (str "c")
  exact ⟨s', msg, hs, hmsg⟩

/-- C15: `NewBlock` appends the record whatever previous hash it is given, and
the new chain passes `VerifyChain` exactly when the old chain passes it and
either is empty or stores in its last record the hash given as previous hash. -/
theorem NewBlock_valid_iff (blockchain : List Block) (t : GoString) (n : Int) (p : GoString) :
    (NewBlock blockchain t n p).1 = blockchain ++ [⟨t, n, p, CalculateHash ⟨t, n, p, []⟩⟩] ∧
    (VerifyChain (NewBlock blockchain t n p).1 = .ok "Blockchain is valid." ↔
      VerifyChain blockchain = .ok "Blockchain is valid." ∧
        (blockchain = [] ∨ ∃ last : Block, blockchain.getLast? = some last ∧ p = last.Hash)) := by
  refine ⟨rfl, ?_⟩
  have hnew : (NewBlock blockchain t n p).1 =
      blockchain ++ [⟨t, n, p, CalculateHash ⟨t, n, p, []⟩⟩] := rfl
  rw [hnew]
  rw [show ("Blockchain is valid." : String) = validMessage from rfl,
    VerifyChain_eq_valid_iff, VerifyChain_eq_valid_iff, Linked_append_singleton]
  refine and_congr_right fun _ => ?_
  cases hlast : blockchain.getLast? with
  | none =>
    have hnil : blockchain = [] := List.getLast?_eq_none_iff.mp hlast
    simp [hnil]
  | some last =>
    have hne : blockchain ≠ [] := by
      intro hnil
      rw [hnil] at hlast
      cases hlast
    simp [hne]

/-- C16: on a non-empty chain that `VerifyChain` reports valid, after
`ChangeBlock(len(chain)-1, text)` with any text `VerifyChain` still reports valid. -/
theorem ChangeBlock_last_undetected (blockchain : List Block) (text : GoString)
    (hne : blockchain ≠ [])
    (hvalid : VerifyChain blockchain = .ok "Blockchain is valid.") :
    ∃ bc : List Block,
      ChangeBlock blockchain ((blockchain.length : Int) - 1) text = .ok (bc, "Block changed:") ∧
      VerifyChain bc = .ok "Blockchain is valid." := by
  have hpos : 0 < blockchain.length := List.length_pos.mpr hne
  have hidx : (blockchain.length : Int) - 1 = ((blockchain.length - 1 : Nat) : Int) := by omega
  rw [hidx]
  refine ⟨_, ChangeBlock_in_range blockchain (blockchain.length - 1) text (by omega), ?_⟩
  exact (VerifyChain_eq_valid_iff _).mpr
    (Linked_set_last blockchain (blockchain.length - 1) _ (by omega) rfl
      ((VerifyChain_eq_valid_iff blockchain).mp hvalid))

/-- C16 at the scenario chain: its last record gets another text. -/
theorem ChangeBlock_last_undetected_witness :
    scenarioChain ≠ [] ∧
    VerifyChain scenarioChain = .ok "Blockchain is valid." ∧
    ∃ bc : List Block,
      ChangeBlock scenarioChain ((scenarioChain.length : Int) - 1) (str "Zain to Ali: 99") =
        .ok (bc, "Block changed:") ∧
      VerifyChain bc = .ok "Blockchain is valid." :=
  ⟨by decide, by decide,
    ChangeBlock_last_undetected scenarioChain (str "Zain to Ali: 99") (by decide) (by decide)⟩

/-- C17: on a chain that `VerifyChain` reports valid, for every index `i` with
`0 ≤ i < len - 1` and every text, `VerifyChain` reports valid after
`ChangeBlock(i, text)` exactly when the recomputed hash of record `i` is the
hash it stored before; every link other than the one between `i` and `i + 1`
holds after the call. -/
theorem ChangeBlock_detected_iff (blockchain : List Block) (i : Nat) (text : GoString)
    (hvalid : VerifyChain blockchain = .ok "Blockchain is valid.")
    (h : i + 1 < blockchain.length) :
    ∃ bc : List Block,
      ChangeBlock blockchain (i : Int) text = .ok (bc, "Block changed:") ∧
      (VerifyChain bc = .ok "Blockchain is valid." ↔
        CalculateHash ⟨text, blockchain[i].Nonce, blockchain[i].PreviousHash,
          blockchain[i].Hash⟩ = blockchain[i].Hash) ∧
      (VerifyChain bc = .ok "Blockchain is not valid!" ↔
        CalculateHash ⟨text, blockchain[i].Nonce, blockchain[i].PreviousHash,
          blockchain[i].Hash⟩ ≠ blockchain[i].Hash) ∧
      ∀ (j : Nat) (_ : 1 ≤ j) (hj : j < bc.length), j ≠ i + 1 →
        bc[j].PreviousHash = bc[j - 1].Hash := by
  have hl := (VerifyChain_eq_valid_iff blockchain).mp hvalid
  have hiff := Linked_set_iff blockchain i
    ⟨text, blockchain[i].Nonce, blockchain[i].PreviousHash,
      CalculateHash ⟨text, blockchain[i].Nonce, blockchain[i].PreviousHash, blockchain[i].Hash⟩⟩
    h rfl hl
  refine ⟨_, ChangeBlock_in_range blockchain i text (by omega), ?_, ?_, ?_⟩
  · exact (VerifyChain_eq_valid_iff _).trans hiff
  · exact (VerifyChain_eq_invalid_iff _).trans (not_congr hiff)
  · exact Linked_set_link blockchain i _ (by omega) rfl hl

/-- C17 at the scenario chain: record 1 gets another text. -/
theorem ChangeBlock_detected_iff_witness :
    VerifyChain scenarioChain = .ok "Blockchain is valid." ∧
    1 + 1 < scenarioChain.length ∧
    ∃ bc : List Block,
      ChangeBlock scenarioChain ((1 : Nat) : Int) (str "Fatima to Ali: 25") =
        .ok (bc, "Block changed:") ∧
      (VerifyChain bc = .ok "Blockchain is valid." ↔
        CalculateHash ⟨str "Fatima to Ali: 25", scenarioChain[1].Nonce,
          scenarioChain[1].PreviousHash, scenarioChain[1].Hash⟩ = scenarioChain[1].Hash) ∧
      (VerifyChain bc = .ok "Blockchain is not valid!" ↔
        CalculateHash ⟨str "Fatima to Ali: 25", scenarioChain[1].Nonce,
          scenarioChain[1].PreviousHash, scenarioChain[1].Hash⟩ ≠ scenarioChain[1].Hash) ∧
      ∀ (j : Nat) (_ : 1 ≤ j) (hj : j < bc.length), j ≠ 1 + 1 →
        bc[j].PreviousHash = bc[j - 1].Hash :=
  ⟨by decide, by decide,
    ChangeBlock_detected_iff scenarioChain 1 (str "Fatima to Ali: 25") (by decide) (by decide)⟩

/-- C18: on a chain in which every record stores the hash `CalculateHash` gives
for it, for every index `i` inside the chain and every text, `ChangeBlock(i,
text)` followed by `ChangeBlock(i, t)` with the transaction `t` record `i` held
before gives back the chain as it was, in every field of every record, and so
the same answer of `VerifyChain`. -/
theorem ChangeBlock_revert (blockchain : List Block) (i : Nat) (text : GoString)
    (hfresh : ∀ r ∈ blockchain, r.Hash = CalculateHash r) (h : i < blockchain.length) :
    ∃ bc bc' : List Block,
      ChangeBlock blockchain (i : Int) text = .ok (bc, "Block changed:") ∧
      ChangeBlock bc (i : Int) blockchain[i].Transaction = .ok (bc', "Block changed:") ∧
      bc' = blockchain ∧
      VerifyChain bc' = VerifyChain blockchain := by
  have hlen : i < (blockchain.set i
      ⟨text, blockchain[i].Nonce, blockchain[i].PreviousHash,
        CalculateHash ⟨text, blockchain[i].Nonce, blockchain[i].PreviousHash,
          blockchain[i].Hash⟩⟩).length := by simpa using h
  have hback : (blockchain.set i
      ⟨text, blockchain[i].Nonce, blockchain[i].PreviousHash,
        CalculateHash ⟨text, blockchain[i].Nonce, blockchain[i].PreviousHash,
          blockchain[i].Hash⟩⟩).set i
      ⟨blockchain[i].Transaction, blockchain[i].Nonce, blockchain[i].PreviousHash,
        CalculateHash ⟨blockchain[i].Transaction, blockchain[i].Nonce,
          blockchain[i].PreviousHash, CalculateHash ⟨text, blockchain[i].Nonce,
            blockchain[i].PreviousHash, blockchain[i].Hash⟩⟩⟩ = blockchain := by
    rw [List.set_set, Block_rebuild blockchain[i] _ (hfresh blockchain[i] (List.getElem_mem h)),
      set_getElem_same blockchain i h]
  refine ⟨_, _, ChangeBlock_in_range blockchain i text h, ?_, hback, by rw [hback]⟩
  rw [ChangeBlock_in_range _ i _ hlen]
  simp only [List.getElem_set_self]
  rfl

/-- C18 at the scenario chain: record 1 is changed and changed back. -/
theorem ChangeBlock_revert_witness :
    (∀ r ∈ scenarioChain, r.Hash = CalculateHash r) ∧
    1 < scenarioChain.length ∧
    ∃ bc bc' : List Block,
      ChangeBlock scenarioChain ((1 : Nat) : Int) (str "Fatima to Ali: 25") =
        .ok (bc, "Block changed:") ∧
      ChangeBlock bc ((1 : Nat) : Int) scenarioChain[1].Transaction =
        .ok (bc', "Block changed:") ∧
      bc' = scenarioChain ∧
      VerifyChain bc' = VerifyChain scenarioChain :=
  ⟨by decide, by decide,
    ChangeBlock_revert scenarioChain 1 (str "Fatima to Ali: 25") (by decide) (by decide)⟩

/-- C19: the nonce enters the hash input as `string(block.Nonce)`, the UTF-8
encoding of the code point with that number (for nonce 49 the text "1", for
nonce 1 the byte 1), and not its decimal text; for every nonce that is no
Unicode scalar value (negative, in `0xD800..0xDFFF`, or above `0x10FFFF`) the
hash input and the hash are those for the nonce `0xFFFD`, with the same
transaction and previous hash. -/
theorem CalculateHash_invalid_nonce (t p h h' : GoString) (n : Int)
    (hn : n < 0 ∨ (0xD800 ≤ n ∧ n ≤ 0xDFFF) ∨ 0x10FFFF < n) :
    (∀ b : Block, record b = b.Transaction ++ intstring b.Nonce ++ b.PreviousHash) ∧
    (∀ c : Char, intstring (c.toNat : Int) = str (String.singleton c)) ∧
    (intstring 49 = str "1" ∧ intstring 1 = [1] ∧ intstring 1 ≠ str "1") ∧
    intstring n = [0xEF, 0xBF, 0xBD] ∧
    intstring 0xFFFD = [0xEF, 0xBF, 0xBD] ∧
    record ⟨t, n, p, h⟩ = record ⟨t, 0xFFFD, p, h'⟩ ∧
    CalculateHash ⟨t, n, p, h⟩ = CalculateHash ⟨t, 0xFFFD, p, h'⟩ := by
  have hfffd : intstring 0xFFFD = [0xEF, 0xBF, 0xBD] := by decide
  have hinv := intstring_invalid n hn
  have hrec : record ⟨t, n, p, h⟩ = record ⟨t, 0xFFFD, p, h'⟩ := by
    unfold record
    simp only [hinv]
  refine ⟨fun _ => rfl, ?_, ⟨by decide, by decide, by decide⟩, hinv.trans hfffd, hfffd, hrec,
    congrArg (fun x => hex.EncodeToString (sha256.Sum256 x)) hrec⟩
  intro c
  have hvalid : validScalar (c.toNat : Int) := by
    have hc := c.valid
    unfold validScalar
    rcases hc with hc | ⟨hc1, hc2⟩
    · have : c.toNat < 0xD800 := hc
      omega
    · have h1 : 0xDFFF < c.toNat := hc1
      have h2 : c.toNat < 0x110000 := hc2
      omega
  rw [intstring_scalar _ hvalid]
  simp [str, String.singleton]

/-- C19 at the nonce `-1`. -/
theorem CalculateHash_invalid_nonce_witness :
    ((-1 : Int) < 0 ∨ (0xD800 ≤ (-1 : Int) ∧ (-1 : Int) ≤ 0xDFFF) ∨ 0x10FFFF < (-1 : Int)) ∧
    intstring (-1) = [0xEF, 0xBF, 0xBD] ∧
    CalculateHash ⟨str "x", -1, str "0", []⟩ = CalculateHash ⟨str "x", 0xFFFD, str "0", []⟩ :=
  ⟨by decide,
    (CalculateHash_invalid_nonce (str "x") (str "0") [] [] (-1) (by decide)).2.2.2.1,
    (CalculateHash_invalid_nonce (str "x") (str "0") [] [] (-1) (by decide)).2.2.2.2.2.2⟩

/-- C20: the three fields are concatenated without separators, so different
triples can have the same hash input: ("ab", 99, "d") and ("a", 98, "cd") both
have the hash input "abcd", and `CalculateHash` returns the same string for
them. -/
theorem CalculateHash_ambiguous :
    record ⟨str "ab", 99, str "d", []⟩ = str "abcd" ∧
    record ⟨str "a", 98, str "cd", []⟩ = str "abcd" ∧
    (str "ab" ≠ str "a" ∧ (99 : Int) ≠ 98 ∧ str "d" ≠ str "cd") ∧
    CalculateHash ⟨str "ab", 99, str "d", []⟩ = CalculateHash ⟨str "a", 98, str "cd", []⟩ ∧
    ∃ a b : Block,
      (a.Transaction, a.Nonce, a.PreviousHash) ≠ (b.Transaction, b.Nonce, b.PreviousHash) ∧
      CalculateHash a = CalculateHash b := by
  have h1 : record ⟨str "ab", 99, str "d", []⟩ = str "abcd" := by decide
  have h2 : record ⟨str "a", 98, str "cd", []⟩ = str "abcd" := by decide
  have heq : CalculateHash ⟨str "ab", 99, str "d", []⟩ =
      CalculateHash ⟨str "a", 98, str "cd", []⟩ :=
    congrArg (fun x => hex.EncodeToString (sha256.Sum256 x)) (h1.trans h2.symm)
  exact ⟨h1, h2, ⟨by decide, by decide, by decide⟩, heq,
    ⟨str "ab", 99, str "d", []⟩, ⟨str "a", 98, str "cd", []⟩, by decide, heq⟩

end Ledger
